import Mathlib

/-!
Verification of `track-pages-read` (src/index.js).

The library stores one timestamp per path string in an IndexedDB object
store and exposes `isRead`, `markAsRead`, `getAll`, `getAllByPath`,
`setConfig` and a throttled scroll monitor (`trackScroll` / `#throttle`).

Modelling conventions, all taken from the source:
* A JS string is its list of UTF-16 code units (`Key := List Nat`);
  IndexedDB compares string keys code unit by code unit, so the key order
  of the object store is the lexicographic order on these lists.
* The object store is an association list sorted by that order
  (`Store`); `db.put(store, value, key)` is an ordered insert that
  overwrites an existing record with the same key, `db.get` is lookup,
  and a cursor walk is the list itself (a range cursor is a filter).
* `Date.now()` is an explicit `Nat` argument (milliseconds).
* Promises are evaluated to their results: every operation is a pure
  function of the store plus its explicit inputs.
-/

namespace TrackPagesRead

/-- A JS string, as its list of UTF-16 code units. -/
abbrev Key := List Nat

/-- The IndexedDB object store: records sorted by key, one value
(a `Date.now()` timestamp) per key. -/
abbrev Store := List (Key × Nat)

/-- Strict key order: IndexedDB compares string keys by their UTF-16 code
units, first difference decides, a proper leading part sorts first. -/
def keyLt : Key → Key → Bool
  | [], [] => false
  | [], _ :: _ => true
  | _ :: _, [] => false
  | a :: as, b :: bs => if a < b then true else if a = b then keyLt as bs else false

/-- Non-strict key order, used for the closed range bounds of
`IDBKeyRange.bound` (both ends inclusive by default). -/
def keyLe : Key → Key → Bool
  | [], _ => true
  | _ :: _, [] => false
  | a :: as, b :: bs => if a < b then true else if a = b then keyLe as bs else false

/-- First list is a leading part of the second (string `startsWith`). -/
def startsWithKey : Key → Key → Bool
  | [], _ => true
  | _ :: _, [] => false
  | a :: as, b :: bs => if a = b then startsWithKey as bs else false

/-- `db.get(storeName, key)`: the stored value, if any. -/
def getStore : Store → Key → Option Nat
  | [], _ => none
  | e :: rest, k => if e.1 = k then some e.2 else getStore rest k

/-- `db.put(storeName, value, key)`: ordered insert, overwriting the
record with the same key if present. -/
def putStore : Store → Key → Nat → Store
  | [], k, v => [(k, v)]
  | e :: rest, k, v =>
      if keyLt k e.1 = true then (k, v) :: e :: rest
      else if k = e.1 then (k, v) :: rest
      else e :: putStore rest k v

/-- Entry order used for the sortedness invariant of the object store. -/
def entryLt (a b : Key × Nat) : Prop := keyLt a.1 b.1 = true

/-- The object store invariant: records strictly sorted by key. -/
def sortedStore (s : Store) : Prop := List.Pairwise entryLt s

theorem keyLt_irrefl (a : Key) : keyLt a a = false := by
  induction a with
  | nil => rfl
  | cons x xs ih => simp [keyLt, ih]

theorem keyLt_trans (a : Key) :
    ∀ b c : Key, keyLt a b = true → keyLt b c = true → keyLt a c = true := by
  induction a with
  | nil =>
      intro b c h1 h2
      cases b with
      | nil => simp [keyLt] at h1
      | cons y ys =>
          cases c with
          | nil => simp [keyLt] at h2
          | cons z zs => simp [keyLt]
  | cons x xs ih =>
      intro b c h1 h2
      cases b with
      | nil => simp [keyLt] at h1
      | cons y ys =>
          cases c with
          | nil => simp [keyLt] at h2
          | cons z zs =>
              rcases Nat.lt_trichotomy x y with hxy | hxy | hxy
              · rcases Nat.lt_trichotomy y z with hyz | hyz | hyz
                · have hxz : x < z := by omega
                  simp [keyLt, hxz]
                · have hxz : x < z := by omega
                  simp [keyLt, hxz]
                · have h3 : ¬ y < z := by omega
                  have h4 : y ≠ z := by omega
                  simp [keyLt, h3, h4] at h2
              · subst hxy
                have hx : ¬ x < x := by omega
                simp only [keyLt, if_neg hx, if_pos rfl] at h1
                rcases Nat.lt_trichotomy x z with hyz | hyz | hyz
                · simp [keyLt, hyz]
                · subst hyz
                  simp only [keyLt, if_neg hx, if_pos rfl] at h2 ⊢
                  exact ih ys zs h1 h2
                · have h3 : ¬ x < z := by omega
                  have h4 : x ≠ z := by omega
                  simp [keyLt, h3, h4] at h2
              · have h3 : ¬ x < y := by omega
                have h4 : x ≠ y := by omega
                simp [keyLt, h3, h4] at h1

theorem keyLt_trichotomy (a : Key) : ∀ b : Key, keyLt a b = true ∨ a = b ∨ keyLt b a = true := by
  induction a with
  | nil =>
      intro b
      cases b with
      | nil => right; left; rfl
      | cons y ys => left; simp [keyLt]
  | cons x xs ih =>
      intro b
      cases b with
      | nil => right; right; simp [keyLt]
      | cons y ys =>
          rcases Nat.lt_trichotomy x y with h | h | h
          · left; simp [keyLt, h]
          · subst h
            rcases ih ys with h2 | h2 | h2
            · left; simp [keyLt, h2]
            · right; left; rw [h2]
            · right; right; simp [keyLt, h2]
          · right; right; simp [keyLt, h]

theorem getStore_putStore_same (s : Store) (k : Key) (v : Nat) :
    getStore (putStore s k v) k = some v := by
  induction s with
  | nil => simp [putStore, getStore]
  | cons e rest ih =>
      by_cases h1 : keyLt k e.1 = true
      · simp [putStore, h1, getStore]
      · by_cases h2 : k = e.1
        · subst h2
          simp [putStore, keyLt_irrefl, getStore]
        · have h3 : e.1 ≠ k := fun hh => h2 hh.symm
          simp [putStore, h1, h2, getStore, h3, ih]

theorem getStore_putStore_other (s : Store) (k q : Key) (v : Nat) (h : q ≠ k) :
    getStore (putStore s k v) q = getStore s q := by
  have h' : ¬ (k = q) := fun hh => h hh.symm
  induction s with
  | nil => simp [putStore, getStore, h']
  | cons e rest ih =>
      by_cases h1 : keyLt k e.1 = true
      · simp [putStore, h1, getStore, h']
      · by_cases h2 : k = e.1
        · subst h2
          simp [putStore, keyLt_irrefl, getStore, h']
        · simp [putStore, h1, h2, getStore, ih]

theorem mem_putStore (s : Store) (k : Key) (v : Nat) (e : Key × Nat)
    (h : e ∈ putStore s k v) : e = (k, v) ∨ e ∈ s := by
  induction s with
  | nil =>
      simp [putStore] at h
      left; exact h
  | cons e0 rest ih =>
      by_cases h1 : keyLt k e0.1 = true
      · simp only [putStore, if_pos h1] at h
        rcases List.mem_cons.mp h with h | h
        · left; exact h
        · right; exact h
      · by_cases h2 : k = e0.1
        · subst h2
          have hni : ¬ keyLt e0.1 e0.1 = true := by simp [keyLt_irrefl]
          simp only [putStore, if_neg hni, if_pos rfl] at h
          rcases List.mem_cons.mp h with h | h
          · left; exact h
          · right; exact List.mem_cons_of_mem _ h
        · simp only [putStore, if_neg h1, if_neg h2] at h
          rcases List.mem_cons.mp h with h | h
          · right; exact h ▸ List.mem_cons_self _ _
          · rcases ih h with h3 | h3
            · left; exact h3
            · right; exact List.mem_cons_of_mem _ h3

theorem sorted_putStore (s : Store) (k : Key) (v : Nat) (hs : sortedStore s) :
    sortedStore (putStore s k v) := by
  induction s with
  | nil =>
      simp only [putStore, sortedStore]
      exact List.pairwise_singleton _ _
  | cons e rest ih =>
      rcases List.pairwise_cons.mp hs with ⟨he, hrest⟩
      by_cases h1 : keyLt k e.1 = true
      · simp only [putStore, if_pos h1, sortedStore]
        refine List.Pairwise.cons ?_ hs
        intro b hb
        rcases List.mem_cons.mp hb with rfl | hb2
        · exact h1
        · exact keyLt_trans k e.1 b.1 h1 (he b hb2)
      · by_cases h2 : k = e.1
        · subst h2
          have hni : ¬ keyLt e.1 e.1 = true := by simp [keyLt_irrefl]
          simp only [putStore, if_neg hni, if_pos rfl, sortedStore]
          refine List.Pairwise.cons ?_ hrest
          intro b hb
          exact he b hb
        · simp only [putStore, if_neg h1, if_neg h2, sortedStore]
          refine List.Pairwise.cons ?_ (ih hrest)
          intro b hb
          rcases mem_putStore rest k v b hb with rfl | hb2
          · rcases keyLt_trichotomy k e.1 with h3 | h3 | h3
            · exact absurd h3 h1
            · exact absurd h3 h2
            · exact h3
          · exact he b hb2

theorem keys_putStore_fresh (s : Store) (k : Key) (v : Nat) (h : getStore s k = none) :
    ((putStore s k v).map Prod.fst).Perm (k :: s.map Prod.fst) := by
  induction s with
  | nil => simp [putStore]
  | cons e rest ih =>
      have hne : e.1 ≠ k := by
        intro hh
        simp [getStore, hh] at h
      have hrest : getStore rest k = none := by
        simpa [getStore, hne] using h
      by_cases h1 : keyLt k e.1 = true
      · simp only [putStore, if_pos h1, List.map_cons]
        exact List.Perm.refl _
      · by_cases h2 : k = e.1
        · exact absurd h2.symm hne
        · simp only [putStore, if_neg h1, if_neg h2, List.map_cons]
          exact ((ih hrest).cons e.1).trans (List.Perm.swap k e.1 _)

theorem sorted_keys_nodup (s : Store) (hs : sortedStore s) : (s.map Prod.fst).Nodup := by
  have h2 : List.Pairwise (fun a b : Key × Nat => a.1 ≠ b.1) s := by
    refine hs.imp ?_
    intro a b hab he
    unfold entryLt at hab
    rw [he] at hab
    simp [keyLt_irrefl] at hab
  exact List.pairwise_map.mpr h2

theorem startsWith_keyLe (p : Key) :
    ∀ k : Key, startsWithKey p k = true → keyLe p k = true := by
  induction p with
  | nil => intro k _; simp [keyLe]
  | cons a as ih =>
      intro k h
      cases k with
      | nil => simp [startsWithKey] at h
      | cons b bs =>
          by_cases hab : a = b
          · subst hab
            simp only [startsWithKey, if_pos rfl] at h
            have hx : ¬ a < a := by omega
            simp [keyLe, hx, ih bs h]
          · simp [startsWithKey, hab] at h

theorem le_bound_startsWith (p : Key) :
    ∀ (k : Key) (u : Nat), keyLe p k = true → keyLe k (p ++ [u]) = true →
      startsWithKey p k = true := by
  induction p with
  | nil => intro k u _ _; simp [startsWithKey]
  | cons a as ih =>
      intro k u h1 h2
      cases k with
      | nil => simp [keyLe] at h1
      | cons b bs =>
          rcases Nat.lt_trichotomy a b with hab | hab | hab
          · exfalso
            have hba : ¬ b < a := by omega
            have hne : b ≠ a := by omega
            simp [keyLe, hba, hne] at h2
          · subst hab
            have hx : ¬ a < a := by omega
            simp only [List.cons_append, keyLe, if_neg hx, if_pos rfl] at h1 h2
            simp only [startsWithKey, if_pos rfl]
            exact ih bs u h1 h2
          · exfalso
            have hba : ¬ a < b := by omega
            have hne : a ≠ b := by omega
            simp [keyLe, hba, hne] at h1

/-- A `TrackPagesReadConfig` object: each field may be absent (`none`) or
present; a present empty string / zero is falsy in JS and is ignored by
`setConfig`'s `config.x || this.#x`. -/
structure Config where
  dbName : Option String
  dbVersion : Option Nat
  storeName : Option String

/-- JS `v || d` for an optional string field: falls back to the default
when the field is absent or the empty string (falsy). -/
def orFalsyStr (v : Option String) (d : String) : String :=
  match v with
  | some s => if s = "" then d else s
  | none => d

/-- JS `v || d` for an optional number field: falls back to the default
when the field is absent or `0` (falsy). -/
def orFalsyNat (v : Option Nat) (d : Nat) : Nat :=
  match v with
  | some n => if n = 0 then d else n
  | none => d

/-- The handle produced by `openDB(name, version, { upgrade })`: it is
bound to the database it opened. The upgrade callback of `#openDB` runs
on a fresh container, finds no object store and creates the configured
one, so the handle carries that store name. -/
structure OpenDB where
  name : String
  version : Nat
  storeNames : List String
deriving DecidableEq

/-- The private instance fields of a `TrackPagesRead` object: the three
configuration fields and the cached database promise `#db`
(`none` until the first `#openDB()` call). -/
structure TrackerState where
  dbName : String
  dbVersion : Nat
  storeName : String
  db : Option OpenDB
deriving DecidableEq

/-- The field initializers of the class: `'track-pages-read'`, `1`,
`'paths'`, and `#db = null`. -/
def defaultTracker : TrackerState :=
  { dbName := "track-pages-read", dbVersion := 1, storeName := "paths", db := none }

/-- `setConfig(config)` (src/index.js lines 45-49): overwrites each
configuration field with `config.x || this.#x`. It does not touch the
cached `#db` field. -/
def setConfig (s : TrackerState) (c : Config) : TrackerState :=
  { s with
    dbName := orFalsyStr c.dbName s.dbName
    dbVersion := orFalsyNat c.dbVersion s.dbVersion
    storeName := orFalsyStr c.storeName s.storeName }

/-- `#openDB()` (src/index.js lines 55-67): if `#db` is unset, open the
container named by the current configuration (the upgrade step creating
the configured object store) and cache the handle; otherwise return the
cached handle unchanged. -/
def openDB (s : TrackerState) : TrackerState × OpenDB :=
  match s.db with
  | some h => (s, h)
  | none =>
      let h : OpenDB :=
        { name := s.dbName, version := s.dbVersion, storeNames := [s.storeName] }
      ({ s with db := some h }, h)

/-- `isRead(pathname)` (src/index.js lines 74-81): resolve the key as
`pathname ?? window.location.pathname`, read it, and return
`result ? new Date(result) : null` — so an absent record (and, by JS
truthiness, a stored `0`) comes back as `null`. A returned `Date` is
identified with the stored millisecond count. -/
def isRead (s : Store) (pathname : Option Key) (ambient : Key) : Option Nat :=
  match getStore s (pathname.getD ambient) with
  | some v => if v = 0 then none else some v
  | none => none

/-- `markAsRead(pathname)` (src/index.js lines 122-127): resolve the key
as `pathname ?? window.location.pathname` and `db.put` the current time
under it. -/
def markAsRead (s : Store) (now : Nat) (pathname : Option Key) (ambient : Key) : Store :=
  putStore s (pathname.getD ambient) now

/-- `getAll()` (src/index.js lines 87-97): walk a cursor over the whole
collection in key order, yielding every `(pathname, date)` record. -/
def getAll : Store → List (Key × Nat)
  | [] => []
  | e :: rest => e :: getAll rest

/-- `getAllByPath(pathname)` (src/index.js lines 104-115): walk a cursor
bounded by `IDBKeyRange.bound(pathname, pathname + '￿')`, a closed
range, yielding the records whose key lies between `pathname` and
`pathname` followed by code unit `0xFFFF = 65535`. -/
def getAllByPath (s : Store) (pathname : Key) : List (Key × Nat) :=
  s.filter (fun e => keyLe pathname e.1 && keyLe e.1 (pathname ++ [65535]))

/-- A sequence of completed `markAsRead` calls with explicit pathnames,
each tagged with its `Date.now()` value, applied to an empty collection. -/
def runWrites (ws : List (Nat × Key)) : Store :=
  ws.foldl (fun s w => markAsRead s w.1 (some w.2) []) []

/-- The timestamp of the most recent write to `p` in a write sequence. -/
def lastWriteTime (ws : List (Nat × Key)) (p : Key) : Option Nat :=
  ws.foldl (fun acc w => if w.2 = p then some w.1 else acc) none

theorem getAll_eq (s : Store) : getAll s = s := by
  induction s with
  | nil => rfl
  | cons e rest ih => simp [getAll, ih]

theorem runWrites_eq (ws : List (Nat × Key)) :
    runWrites ws = ws.foldl (fun acc w => putStore acc w.2 w.1) [] := rfl

theorem getStore_foldl (ws : List (Nat × Key)) (p : Key) :
    ∀ s : Store,
      getStore (ws.foldl (fun acc w => putStore acc w.2 w.1) s) p
        = ws.foldl (fun acc w => if w.2 = p then some w.1 else acc) (getStore s p) := by
  induction ws with
  | nil => intro s; rfl
  | cons w rest ih =>
      intro s
      simp only [List.foldl_cons]
      rw [ih]
      by_cases h : w.2 = p
      · subst h
        rw [if_pos rfl, getStore_putStore_same]
      · rw [if_neg h, getStore_putStore_other _ _ _ _ (fun hh => h hh.symm)]

theorem getStore_runWrites (ws : List (Nat × Key)) (p : Key) :
    getStore (runWrites ws) p = lastWriteTime ws p := by
  rw [runWrites_eq, getStore_foldl]
  rfl

theorem foldl_lastWrite_never (p : Key) (ws : List (Nat × Key)) :
    ∀ acc : Option Nat, (∀ w ∈ ws, w.2 ≠ p) →
      ws.foldl (fun acc w => if w.2 = p then some w.1 else acc) acc = acc := by
  induction ws with
  | nil => intro acc _; rfl
  | cons w rest ih =>
      intro acc hacc
      simp only [List.foldl_cons]
      rw [if_neg (hacc w (List.mem_cons_self _ _))]
      exact ih _ (fun w' hw' => hacc w' (List.mem_cons_of_mem _ hw'))

theorem lastWriteTime_of_never (ws : List (Nat × Key)) (p : Key)
    (h : ∀ w ∈ ws, w.2 ≠ p) : lastWriteTime ws p = none :=
  foldl_lastWrite_never p ws none h

theorem foldl_lastWrite_mem (p : Key) (t : Nat) (ws : List (Nat × Key)) :
    ∀ acc : Option Nat,
      ws.foldl (fun acc w => if w.2 = p then some w.1 else acc) acc = some t →
      (t, p) ∈ ws ∨ acc = some t := by
  induction ws with
  | nil => intro acc hacc; right; exact hacc
  | cons w rest ih =>
      intro acc hacc
      simp only [List.foldl_cons] at hacc
      rcases ih _ hacc with hm | hm
      · left; exact List.mem_cons_of_mem _ hm
      · by_cases hw : w.2 = p
        · rw [if_pos hw] at hm
          left
          have hwtp : w = (t, p) := by
            cases w with
            | mk w1 w2 =>
                simp at hw hm
                simp [hw, hm.symm]
          exact hwtp ▸ List.mem_cons_self _ _
        · rw [if_neg hw] at hm
          right; exact hm

theorem lastWriteTime_mem (ws : List (Nat × Key)) (p : Key) (t : Nat)
    (h : lastWriteTime ws p = some t) : (t, p) ∈ ws := by
  rcases foldl_lastWrite_mem p t ws none h with hm | hm
  · exact hm
  · simp at hm

theorem mem_foldl_put (e : Key × Nat) (ws : List (Nat × Key)) :
    ∀ s : Store, e ∈ ws.foldl (fun acc w => putStore acc w.2 w.1) s →
      e ∈ s ∨ ∃ w ∈ ws, e = (w.2, w.1) := by
  induction ws with
  | nil => intro s hs; left; exact hs
  | cons w rest ih =>
      intro s hs
      simp only [List.foldl_cons] at hs
      rcases ih _ hs with hm | hm
      · rcases mem_putStore s w.2 w.1 e hm with hm2 | hm2
        · right
          exact ⟨w, List.mem_cons_self _ _, hm2⟩
        · left; exact hm2
      · right
        rcases hm with ⟨w', hw', he⟩
        exact ⟨w', List.mem_cons_of_mem _ hw', he⟩

theorem mem_runWrites (ws : List (Nat × Key)) (e : Key × Nat)
    (h : e ∈ runWrites ws) : ∃ w ∈ ws, e = (w.2, w.1) := by
  rw [runWrites_eq] at h
  rcases mem_foldl_put e ws [] h with hm | hm
  · simp at hm
  · exact hm

theorem sorted_runWrites (ws : List (Nat × Key)) : sortedStore (runWrites ws) := by
  rw [runWrites_eq]
  have aux : ∀ s : Store, sortedStore s →
      sortedStore (ws.foldl (fun acc w => putStore acc w.2 w.1) s) := by
    induction ws with
    | nil => intro s hs; exact hs
    | cons w rest ih =>
        intro s hs
        simp only [List.foldl_cons]
        exact ih _ (sorted_putStore s w.2 w.1 hs)
  exact aux [] List.Pairwise.nil

theorem keys_foldl_perm (ws : List (Nat × Key)) :
    ∀ s : Store, (ws.map Prod.snd).Nodup →
      (∀ w ∈ ws, getStore s w.2 = none) →
      ((ws.foldl (fun acc w => putStore acc w.2 w.1) s).map Prod.fst).Perm
        (s.map Prod.fst ++ ws.map Prod.snd) := by
  induction ws with
  | nil =>
      intro s _ _
      simp
  | cons w rest ih =>
      intro s hnd hfresh
      simp only [List.foldl_cons, List.map_cons]
      have hw : getStore s w.2 = none := hfresh w (List.mem_cons_self _ _)
      have hnd2 : w.2 ∉ rest.map Prod.snd ∧ (rest.map Prod.snd).Nodup := by
        rw [List.map_cons, List.nodup_cons] at hnd
        exact hnd
      have hfresh2 : ∀ w' ∈ rest, getStore (putStore s w.2 w.1) w'.2 = none := by
        intro w' hw'
        have hne : w'.2 ≠ w.2 := by
          intro he
          exact hnd2.1 (he ▸ List.mem_map_of_mem Prod.snd hw')
        rw [getStore_putStore_other _ _ _ _ hne]
        exact hfresh w' (List.mem_cons_of_mem _ hw')
      have hperm := ih (putStore s w.2 w.1) hnd2.2 hfresh2
      refine hperm.trans ?_
      have hkeys := keys_putStore_fresh s w.2 w.1 hw
      refine (hkeys.append_right (rest.map Prod.snd)).trans ?_
      exact List.perm_middle.symm

theorem keys_runWrites_perm (ws : List (Nat × Key)) (hnd : (ws.map Prod.snd).Nodup) :
    ((runWrites ws).map Prod.fst).Perm (ws.map Prod.snd) := by
  rw [runWrites_eq]
  simpa using keys_foldl_perm ws [] hnd (fun w _ => rfl)

/-- The closure state of one `#throttle(func, limit)` wrapper
(src/index.js lines 156-182): `lastCall`, and the pending timer, if any,
as its due time together with the `args` the scheduling call closed
over. -/
structure ThrottleState (A : Type) where
  lastCall : Nat
  timeout : Option (Nat × A)
deriving DecidableEq

/-- One invocation of the gated function returned by `#throttle`
(src/index.js lines 163-181) at wall-clock time `now`:
`remaining = limit - (now - lastCall)`; if `remaining <= 0` the call is
admitted (any pending timer is cleared, `lastCall` is set, and `func` is
applied to `args` — returned as `some args`); otherwise, if no timer is
pending, one is scheduled to fire `remaining` ms later, closing over this
call's `args`; otherwise nothing happens. -/
def throttleCall {A : Type} (limit : Nat) (st : ThrottleState A) (now : Nat) (args : A) :
    ThrottleState A × Option A :=
  if (limit : Int) - ((now : Int) - (st.lastCall : Int)) ≤ 0 then
    ({ lastCall := now, timeout := none }, some args)
  else
    match st.timeout with
    | some _ => (st, none)
    | none =>
        ({ st with
            timeout :=
              some (now + ((limit : Int) - ((now : Int) - (st.lastCall : Int))).toNat, args) },
          none)

/-- The `setTimeout` callback of `#throttle` (src/index.js lines 175-179)
running at time `now`: set `lastCall = Date.now()`, clear the pending
marker, and apply `func` to the captured `args` (returned as the second
component). -/
def throttleFire {A : Type} (st : ThrottleState A) (now : Nat) : ThrottleState A × Option A :=
  match st.timeout with
  | some fa => ({ lastCall := now, timeout := none }, some fa.2)
  | none => (st, none)

/-- Host timer semantics: before anything happens at time `t`, a pending
one-shot timer whose due time has arrived fires (at its due time), via
`throttleFire`. Returns the new state and the executions `(time, args)`
it produced. -/
def flushFire {A : Type} (st : ThrottleState A) (t : Nat) : ThrottleState A × List (Nat × A) :=
  match st.timeout with
  | some fa =>
      if fa.1 ≤ t then ((throttleFire st fa.1).1, [(fa.1, fa.2)]) else (st, [])
  | none => (st, [])

/-- One gated call at time `t` with arguments `a`, preceded by any due
timer firing: the executions are listed in the order they happen. -/
def stepCall {A : Type} (limit : Nat) (st : ThrottleState A) (t : Nat) (a : A) :
    ThrottleState A × List (Nat × A) :=
  ((throttleCall limit (flushFire st t).1 t a).1,
    (flushFire st t).2 ++
      (match (throttleCall limit (flushFire st t).1 t a).2 with
        | some x => [(t, x)]
        | none => []))

/-- Run the gated function over a timed trace of calls, then let the
clock advance to `endT` so that a still-pending timer due by then fires.
The result is the list of executions of the wrapped action, each with
its time and arguments. -/
def throttleRun {A : Type} (limit : Nat) : ThrottleState A → List (Nat × A) → Nat → List (Nat × A)
  | st, [], endT => (flushFire st endT).2
  | st, (t, a) :: rest, endT =>
      (stepCall limit st t a).2 ++ throttleRun limit (stepCall limit st t a).1 rest endT

/-- The first execution of the list, if any, happens no earlier than `n`. -/
def HeadGE {A : Type} (n : Nat) : List (Nat × A) → Prop
  | [] => True
  | e :: _ => n ≤ e.1

/-- Consecutive executions are at least `gap` milliseconds apart. -/
def Chained {A : Type} (gap : Nat) : List (Nat × A) → Prop
  | [] => True
  | e :: rest => HeadGE (e.1 + gap) rest ∧ Chained gap rest

theorem throttleRun_nil {A : Type} (limit : Nat) (st : ThrottleState A) (endT : Nat) :
    throttleRun limit st [] endT = (flushFire st endT).2 := rfl

theorem throttleRun_cons {A : Type} (limit : Nat) (st : ThrottleState A)
    (t : Nat) (a : A) (rest : List (Nat × A)) (endT : Nat) :
    throttleRun limit st ((t, a) :: rest) endT
      = (stepCall limit st t a).2 ++ throttleRun limit (stepCall limit st t a).1 rest endT := rfl

/-- While a timer is pending and every further call comes in before it is
due, the gated function does nothing more: only the pending deferred
call fires, with its captured arguments. -/
theorem run_pending_noop {A : Type} (limit lc f : Nat) (b : A) (events : List (Nat × A)) :
    ∀ endT : Nat, f = lc + limit → f ≤ endT → (∀ e ∈ events, e.1 < f) →
      throttleRun limit ⟨lc, some (f, b)⟩ events endT = [(f, b)] := by
  induction events with
  | nil =>
      intro endT hf hend _
      simp [throttleRun_nil, flushFire, hend]
  | cons e rest ih =>
      intro endT hf hend hev
      obtain ⟨t, a⟩ := e
      have ht : t < f := hev (t, a) (List.mem_cons_self _ _)
      have h1 : ¬ f ≤ t := by omega
      have h2 : ¬ ((limit : Int) - ((t : Int) - (lc : Int)) ≤ 0) := by omega
      rw [throttleRun_cons]
      have hstep : stepCall limit (⟨lc, some (f, b)⟩ : ThrottleState A) t a
          = (⟨lc, some (f, b)⟩, []) := by
        simp [stepCall, flushFire, h1, throttleCall, h2]
      rw [hstep, List.nil_append]
      exact ih endT hf hend (fun e' he' => hev e' (List.mem_cons_of_mem _ he'))

/-- Gap invariant of a `#throttle` wrapper: starting from a state whose
pending timer (if any) is due exactly one window after the last admitted
call, every pair of consecutive executions it ever produces is at least
`limit` ms apart, and the first one is at least `limit` ms after
`lastCall`. -/
theorem chained_run {A : Type} (limit : Nat) (events : List (Nat × A)) :
    ∀ (st : ThrottleState A) (endT : Nat),
      (∀ f a, st.timeout = some (f, a) → f = st.lastCall + limit) →
      Chained limit (throttleRun limit st events endT)
      ∧ HeadGE (st.lastCall + limit) (throttleRun limit st events endT) := by
  induction events with
  | nil =>
      intro st endT hok
      rw [throttleRun_nil]
      cases hto : st.timeout with
      | none => simp [flushFire, hto, Chained, HeadGE]
      | some fa =>
          obtain ⟨f, a⟩ := fa
          have hf := hok f a hto
          subst hf
          by_cases hle : st.lastCall + limit ≤ endT
          · simp [flushFire, hto, hle, Chained, HeadGE, le_refl]
          · simp [flushFire, hto, hle, Chained, HeadGE]
  | cons ev rest ih =>
      obtain ⟨t, a⟩ := ev
      intro st endT hok
      rw [throttleRun_cons]
      cases hto : st.timeout with
      | some fa =>
          obtain ⟨f, b⟩ := fa
          have hf := hok f b hto
          by_cases hft : f ≤ t
          · -- the pending timer fires at f, then the call at t is processed
            by_cases hc : (limit : Int) - ((t : Int) - (f : Int)) ≤ 0
            · -- call admitted immediately
              have hstep : stepCall limit st t a
                  = (⟨t, none⟩, [(f, b), (t, a)]) := by
                simp [stepCall, flushFire, hto, hft, throttleFire, throttleCall, hc]
              rw [hstep]
              obtain ⟨hch, hhd⟩ := ih ⟨t, none⟩ endT (by intro f' a' h'; simp at h')
              have htlim : f + limit ≤ t := by omega
              refine ⟨⟨?_, ⟨?_, hch⟩⟩, ?_⟩
              · exact htlim
              · exact hhd
              · simp [HeadGE]; omega
            · -- call schedules a new timer, due at f + limit
              have hfire : t + ((limit : Int) - ((t : Int) - (f : Int))).toNat = f + limit := by
                omega
              have hstep : stepCall limit st t a
                  = (⟨f, some (f + limit, a)⟩, [(f, b)]) := by
                simp only [stepCall, flushFire, hto, if_pos hft, throttleFire]
                simp only [throttleCall, if_neg hc]
                simp [hfire]
              rw [hstep]
              obtain ⟨hch, hhd⟩ := ih ⟨f, some (f + limit, a)⟩ endT
                (by
                  intro f' a' h'
                  simp only [Option.some.injEq, Prod.mk.injEq] at h'
                  show f' = f + limit
                  omega)
              refine ⟨⟨?_, hch⟩, ?_⟩
              · exact hhd
              · simp [HeadGE]; omega
          · -- pending timer not yet due: the call is a no-op
            have hc : ¬ ((limit : Int) - ((t : Int) - (st.lastCall : Int)) ≤ 0) := by
              omega
            have hstep : stepCall limit st t a = (st, []) := by
              simp [stepCall, flushFire, hto, hft, throttleCall, hc]
            rw [hstep]
            simpa using ih st endT hok
      | none =>
          by_cases hc : (limit : Int) - ((t : Int) - (st.lastCall : Int)) ≤ 0
          · -- admitted immediately
            have hstep : stepCall limit st t a = (⟨t, none⟩, [(t, a)]) := by
              simp [stepCall, flushFire, hto, throttleCall, hc]
            rw [hstep]
            obtain ⟨hch, hhd⟩ := ih ⟨t, none⟩ endT (by intro f' a' h'; simp at h')
            refine ⟨⟨hhd, hch⟩, ?_⟩
            simp [HeadGE]; omega
          · -- schedules a timer due at lastCall + limit
            have hfire : t + ((limit : Int) - ((t : Int) - (st.lastCall : Int))).toNat
                = st.lastCall + limit := by
              omega
            have hstep : stepCall limit st t a
                = (⟨st.lastCall, some (st.lastCall + limit, a)⟩, []) := by
              simp only [stepCall, flushFire, hto, throttleCall, if_neg hc]
              simp [hfire]
            rw [hstep]
            obtain ⟨hch, hhd⟩ := ih ⟨st.lastCall, some (st.lastCall + limit, a)⟩ endT
              (by
                intro f' a' h'
                simp only [Option.some.injEq, Prod.mk.injEq] at h'
                show f' = st.lastCall + limit
                omega)
            simpa using ⟨hch, hhd⟩

/-- The viewport quantities read by the scroll handler, as exact
rationals: `window.scrollY`, `window.innerHeight`, and
`document.documentElement.scrollHeight`. -/
structure ScrollEnv where
  scrollY : ℚ
  innerHeight : ℚ
  scrollHeight : ℚ

/-- The throttled callback registered by `trackScroll` (src/index.js
lines 137-145), on one admitted check: compute
`scrollPct = (scrollY + innerHeight) / scrollHeight` and call
`markAsRead()` (ambient path) iff `scrollPct >= threshold`. -/
def scrollCallback (threshold : ℚ) (env : ScrollEnv) (s : Store) (now : Nat) (ambient : Key) :
    Store :=
  if threshold ≤ (env.scrollY + env.innerHeight) / env.scrollHeight then
    markAsRead s now none ambient
  else s

/-- C1 counterexample: open the storage handle (any prior operation does
this lazily), then `setConfig` with a new container name `new-db`; the
next `#openDB()` still returns the handle to `track-pages-read`, not to
`new-db`, even though the configuration field was updated: `setConfig`
does not invalidate the cached handle. -/
theorem setConfig_c1_cex :
    (openDB (setConfig (openDB defaultTracker).1
        { dbName := some "new-db", dbVersion := none, storeName := none })).2.name
      = "track-pages-read"
    ∧ (setConfig (openDB defaultTracker).1
        { dbName := some "new-db", dbVersion := none, storeName := none }).dbName
      = "new-db"
    ∧ ("track-pages-read" : String) ≠ "new-db" := by
  refine ⟨by decide, by decide, by decide⟩

/-- C1 (amended): `setConfig` merges the configuration fields but does
not invalidate the cached handle: whenever `#db` is already set, the next
`#openDB()` returns the previously opened container unchanged, ignoring
the new configuration; only when no open has happened yet does the merged
configuration determine the container the next storage operation opens. -/
theorem setConfig_c1 (s : TrackerState) (c : Config) :
    (openDB (setConfig s c)).2
      = s.db.getD
          { name := orFalsyStr c.dbName s.dbName,
            version := orFalsyNat c.dbVersion s.dbVersion,
            storeNames := [orFalsyStr c.storeName s.storeName] } := by
  cases hdb : s.db with
  | none => simp [openDB, setConfig, hdb]
  | some h => simp [openDB, setConfig, hdb]

/-- C2 counterexample: the stored key `[47, 98, 65535, 97]` — the
characters of "/b" followed by code unit 0xFFFF and one more character —
starts with the query key `[47, 98]`, yet `getAllByPath` on that query
yields nothing: the key sorts strictly after the closed range's upper
bound `[47, 98, 65535]`. -/
theorem getAllByPath_c2_cex :
    getAllByPath (runWrites [(5, [47, 98, 65535, 97])]) [47, 98] = []
    ∧ startsWithKey [47, 98] [47, 98, 65535, 97] = true
    ∧ getStore (runWrites [(5, [47, 98, 65535, 97])]) [47, 98, 65535, 97] = some 5 := by
  decide

/-- C2 (amended): `getAllByPath(p)` yields exactly the stored entries
whose key lies in the closed range from `p` to `p` followed by code unit
0xFFFF — equivalently, exactly the stored entries whose key starts with
`p` and does not sort beyond `p ++ [0xFFFF]` (keys extending
`p ++ [0xFFFF]` are the only starts-with-`p` keys excluded). An exact
match on `p` itself is included, keys sharing only a shorter common
leading part are excluded, and after writing "/blog/a", "/blog/b" and
"/about", the query "/blog" yields exactly the two "/blog/*" entries. -/
theorem getAllByPath_c2 :
    (∀ (s : Store) (p : Key) (e : Key × Nat),
        e ∈ getAllByPath s p
          ↔ (e ∈ s ∧ startsWithKey p e.1 = true ∧ keyLe e.1 (p ++ [65535]) = true))
    ∧ getAllByPath
        (runWrites
          [(1, [47, 98, 108, 111, 103, 47, 97]),
            (2, [47, 98, 108, 111, 103, 47, 98]),
            (3, [47, 97, 98, 111, 117, 116])])
        [47, 98, 108, 111, 103]
      = [([47, 98, 108, 111, 103, 47, 97], 1), ([47, 98, 108, 111, 103, 47, 98], 2)] := by
  constructor
  · intro s p e
    constructor
    · intro hm
      simp only [getAllByPath, List.mem_filter] at hm
      obtain ⟨hms, hf⟩ := hm
      rw [Bool.and_eq_true] at hf
      exact ⟨hms, le_bound_startsWith p e.1 65535 hf.1 hf.2, hf.2⟩
    · intro hm
      obtain ⟨hms, hsw, hub⟩ := hm
      simp only [getAllByPath, List.mem_filter]
      refine ⟨hms, ?_⟩
      rw [Bool.and_eq_true]
      exact ⟨startsWith_keyLe p e.1 hsw, hub⟩
  · decide

/-- C3 counterexample: with a 10 ms window, gated calls at times 10, 12,
14 carrying arguments 1, 2, 3 produce the deferred execution `(20, 2)` —
the arguments captured by the call at time 12 that scheduled the timer —
and not `(20, 3)`, the most recent arguments at fire time, as the claim
states. -/
theorem throttle_c3_cex :
    throttleRun 10 (⟨0, none⟩ : ThrottleState Nat) [(10, 1), (12, 2), (14, 3)] 30
      = [(10, 1), (20, 2)]
    ∧ throttleRun 10 (⟨0, none⟩ : ThrottleState Nat) [(10, 1), (12, 2), (14, 3)] 30
      ≠ [(10, 1), (20, 3)] := by
  decide

/-- C3 (amended): when a gated call arrives during the window
(`remaining > 0`) and no deferred call is pending, a deferred execution
is scheduled to fire once the remaining time elapses — at
`now + (windowMs - elapsed) = lastCall + windowMs` — and when it fires it
executes the action with the arguments of the call that scheduled it
(later gated calls before firing do not replace them), records the fire
time as last-admitted, and clears the pending marker. -/
theorem throttle_c3 {A : Type} (limit : Nat) (st : ThrottleState A) (now : Nat) (a : A)
    (hnone : st.timeout = none)
    (hrem : 0 < (limit : Int) - ((now : Int) - (st.lastCall : Int))) :
    throttleCall limit st now a
      = ({ lastCall := st.lastCall, timeout := some (st.lastCall + limit, a) }, none)
    ∧ throttleFire { lastCall := st.lastCall, timeout := some (st.lastCall + limit, a) }
        (st.lastCall + limit)
      = ({ lastCall := st.lastCall + limit, timeout := none }, some a) := by
  have hif : ¬ ((limit : Int) - ((now : Int) - (st.lastCall : Int)) ≤ 0) := by omega
  have hfire : now + ((limit : Int) - ((now : Int) - (st.lastCall : Int))).toNat
      = st.lastCall + limit := by omega
  constructor
  · simp [throttleCall, hif, hnone, hfire]
  · simp [throttleFire]

/-- Witness for C3 (amended) at window 10, state `lastCall = 10`, a call
at time 12 with argument 7: a timer is scheduled for time 20 and fires
with argument 7. -/
theorem throttle_c3_w :
    throttleCall 10 (⟨10, none⟩ : ThrottleState Nat) 12 7
      = ({ lastCall := 10, timeout := some (20, 7) }, none)
    ∧ throttleFire ({ lastCall := 10, timeout := some (20, 7) } : ThrottleState Nat) 20
      = ({ lastCall := 20, timeout := none }, some 7) :=
  throttle_c3 10 ⟨10, none⟩ 12 7 rfl (by decide)

/-- C4: while a deferred call is pending, a further gated call during the
window schedules no new timer and leaves the wrapper's state unchanged,
and the pending deferred execution fires with the arguments captured when
it was scheduled, not those of later calls. -/
theorem throttle_c4 {A : Type} (limit : Nat) (st : ThrottleState A) (now fireT : Nat)
    (a b : A) (hp : st.timeout = some (fireT, b))
    (hrem : 0 < (limit : Int) - ((now : Int) - (st.lastCall : Int))) :
    throttleCall limit st now a = (st, none)
    ∧ (throttleFire st fireT).2 = some b := by
  have hif : ¬ ((limit : Int) - ((now : Int) - (st.lastCall : Int)) ≤ 0) := by omega
  constructor
  · simp [throttleCall, hif, hp]
  · simp [throttleFire, hp]

/-- Witness for C4: with a timer pending for time 20 carrying argument 2,
a gated call at time 12 with argument 3 changes nothing, and the timer
fires with the captured argument 2. -/
theorem throttle_c4_w :
    throttleCall 10 (⟨10, some (20, 2)⟩ : ThrottleState Nat) 12 3
      = (⟨10, some (20, 2)⟩, none)
    ∧ (throttleFire (⟨10, some (20, 2)⟩ : ThrottleState Nat) 20).2 = some 2 :=
  throttle_c4 10 ⟨10, some (20, 2)⟩ 12 20 3 2 rfl (by decide)

/-- C5: executions produced by a `#throttle` wrapper are always at least
`windowMs` apart — so over any time window of that length at most one
leading-edge execution occurs, with a trailing execution landing exactly
one window after the suppressed burst's leading edge — and a burst of
N ≥ 2 rapid calls inside one window starting at `t0` produces exactly one
immediate execution (at `t0`) plus exactly one deferred execution (at
`t0 + windowMs`), never N. -/
theorem throttle_c5 {A : Type} (limit t0 t1 endT : Nat) (a0 a1 : A)
    (rest : List (Nat × A))
    (h0 : limit ≤ t0) (h1 : t1 < t0 + limit)
    (hrest : ∀ e ∈ rest, e.1 < t0 + limit) (hend : t0 + limit ≤ endT) :
    (∀ (events : List (Nat × A)) (eT : Nat),
        Chained limit (throttleRun limit ⟨0, none⟩ events eT))
    ∧ throttleRun limit ⟨0, none⟩ ((t0, a0) :: (t1, a1) :: rest) endT
        = [(t0, a0), (t0 + limit, a1)] := by
  constructor
  · intro events eT
    exact (chained_run limit events ⟨0, none⟩ eT (by intro f' a' h'; cases h')).1
  · rw [throttleRun_cons]
    have hc1 : (limit : Int) - ((t0 : Int) - ((0 : Nat) : Int)) ≤ 0 := by omega
    have hstep1 : stepCall limit (⟨0, none⟩ : ThrottleState A) t0 a0
        = (⟨t0, none⟩, [(t0, a0)]) := by
      simp [stepCall, flushFire, throttleCall, hc1, h0]
    rw [hstep1, throttleRun_cons]
    have hc2 : ¬ ((limit : Int) - ((t1 : Int) - (t0 : Int)) ≤ 0) := by omega
    have hfire : t1 + ((limit : Int) - ((t1 : Int) - (t0 : Int))).toNat = t0 + limit := by
      omega
    have hstep2 : stepCall limit (⟨t0, none⟩ : ThrottleState A) t1 a1
        = (⟨t0, some (t0 + limit, a1)⟩, []) := by
      simp [stepCall, flushFire, throttleCall, hc2, hfire]
    rw [hstep2, run_pending_noop limit t0 (t0 + limit) a1 rest endT rfl hend hrest]
    rfl

/-- Witness for C5: with a 10 ms window, calls at 10, 12, 13 produce
exactly the immediate execution at 10 and the deferred one at 20. -/
theorem throttle_c5_w :
    throttleRun 10 (⟨0, none⟩ : ThrottleState Nat) [(10, 1), (12, 2), (13, 3)] 25
      = [(10, 1), (20, 2)] :=
  (throttle_c5 10 10 12 25 1 2 [(13, 3)] (by decide) (by decide) (by decide)
    (by decide)).2

/-- C6: for a path `p`, after any sequence of completed `markAsRead`
writes (all at `Date.now()` times, hence positive): if `p` was never
written, `isRead` returns `null`, never a default timestamp; if it was,
`isRead` returns exactly the timestamp of the most recent write to `p`;
and writing `p` twice with a non-decreasing clock leaves exactly the
second (larger-or-equal) timestamp visible. -/
theorem isRead_c6 (ws : List (Nat × Key)) (p amb : Key) (t1 t2 : Nat)
    (hpos : ∀ w ∈ ws, 0 < w.1) (h1 : 0 < t1) (h2 : 0 < t2) (hmono : t1 ≤ t2) :
    ((∀ w ∈ ws, w.2 ≠ p) → isRead (runWrites ws) (some p) amb = none)
    ∧ (∀ t, lastWriteTime ws p = some t → isRead (runWrites ws) (some p) amb = some t)
    ∧ isRead (runWrites (ws ++ [(t1, p)])) (some p) amb = some t1
    ∧ isRead (runWrites (ws ++ [(t1, p), (t2, p)])) (some p) amb = some t2
    ∧ t1 ≤ t2 := by
  refine ⟨?_, ?_, ?_, ?_, hmono⟩
  · intro hnever
    have hg : getStore (runWrites ws) p = none := by
      rw [getStore_runWrites]
      exact lastWriteTime_of_never ws p hnever
    simp [isRead, hg]
  · intro t ht
    have hposT : 0 < t := hpos (t, p) (lastWriteTime_mem ws p t ht)
    have hg : getStore (runWrites ws) p = some t := by
      rw [getStore_runWrites]
      exact ht
    simp [isRead, hg, Nat.pos_iff_ne_zero.mp hposT]
  · have hg : getStore (runWrites (ws ++ [(t1, p)])) p = some t1 := by
      rw [getStore_runWrites]
      unfold lastWriteTime
      rw [List.foldl_append]
      simp
    simp [isRead, hg, Nat.pos_iff_ne_zero.mp h1]
  · have hg : getStore (runWrites (ws ++ [(t1, p), (t2, p)])) p = some t2 := by
      rw [getStore_runWrites]
      unfold lastWriteTime
      rw [List.foldl_append]
      simp
    simp [isRead, hg, Nat.pos_iff_ne_zero.mp h2]

/-- Witness for C6: after writing the path `[47, 97]` at times 5, 3, 4,
`isRead` on it returns the last write's timestamp, 4. -/
theorem isRead_c6_w :
    isRead (runWrites ([(5, [47, 97])] ++ [(3, [47, 97]), (4, [47, 97])]))
        (some [47, 97]) [] = some 4 :=
  (isRead_c6 [(5, [47, 97])] [47, 97] [] 3 4 (by decide) (by decide) (by decide)
    (by decide)).2.2.2.1

/-- C7: after `markAsRead` on N distinct paths, `getAll` yields exactly N
entries — exactly those N paths, each exactly once, each carrying the
timestamp some write recorded — walked in the store's key order, and on
an empty collection it yields no entries rather than an error. -/
theorem getAll_c7 (ws : List (Nat × Key)) (hnd : (ws.map Prod.snd).Nodup) :
    (getAll (runWrites ws)).length = ws.length
    ∧ ((getAll (runWrites ws)).map Prod.fst).Perm (ws.map Prod.snd)
    ∧ (∀ e ∈ getAll (runWrites ws), (e.2, e.1) ∈ ws)
    ∧ sortedStore (runWrites ws)
    ∧ getAll ([] : Store) = [] := by
  have hperm := keys_runWrites_perm ws hnd
  refine ⟨?_, ?_, ?_, sorted_runWrites ws, rfl⟩
  · have hlen := hperm.length_eq
    simpa [getAll_eq, List.length_map] using hlen
  · simpa [getAll_eq] using hperm
  · intro e he
    rw [getAll_eq] at he
    rcases mem_runWrites ws e he with ⟨w, hw, hew⟩
    rw [hew]
    exact hw

/-- Witness for C7: two distinct paths written give two entries, and the
empty collection gives none. -/
theorem getAll_c7_w :
    (getAll (runWrites [(1, [47]), (2, [48])])).length = 2
    ∧ getAll ([] : Store) = [] :=
  ⟨(getAll_c7 [(1, [47]), (2, [48])] (by decide)).1,
    (getAll_c7 [(1, [47]), (2, [48])] (by decide)).2.2.2.2⟩

/-- C8: `markAsRead(P)` at time `now` stores exactly `now` under exactly
the key `P`, unconditionally overwriting any existing record for `P`,
leaves the record of every other key unchanged, and keeps the store's
uniqueness invariant: records stay sorted and the keys duplicate-free,
so at most one record per exact path string. -/
theorem markAsRead_c8 (s : Store) (t : Nat) (p q amb : Key)
    (hq : q ≠ p) (hs : sortedStore s) :
    getStore (markAsRead s t (some p) amb) p = some t
    ∧ getStore (markAsRead s t (some p) amb) q = getStore s q
    ∧ sortedStore (markAsRead s t (some p) amb)
    ∧ ((markAsRead s t (some p) amb).map Prod.fst).Nodup := by
  refine ⟨?_, ?_, ?_, ?_⟩
  · exact getStore_putStore_same s p t
  · exact getStore_putStore_other s p q t hq
  · exact sorted_putStore s p t hs
  · exact sorted_keys_nodup _ (sorted_putStore s p t hs)

/-- Witness for C8: writing key `[48]` at time 4 into a store holding
`[47]` stores 4 under `[48]` and leaves `[47]` untouched. -/
theorem markAsRead_c8_w :
    getStore (markAsRead [([47], 9)] 4 (some [48]) []) [48] = some 4
    ∧ getStore (markAsRead [([47], 9)] 4 (some [48]) []) [47]
      = getStore [([47], 9)] [47] :=
  ⟨(markAsRead_c8 [([47], 9)] 4 [48] [47] [] (by decide)
      (by exact List.pairwise_singleton _ _)).1,
    (markAsRead_c8 [([47], 9)] 4 [48] [47] [] (by decide)
      (by exact List.pairwise_singleton _ _)).2.1⟩

/-- C9: on an admitted scroll check, the handler computes
`(scrollY + innerHeight) / scrollHeight` and calls `markAsRead()` with
the ambient current path iff the fraction reaches the threshold; below
the threshold nothing is written — a silent no-op, not an error.
(`0 < scrollHeight` keeps the exact rational division faithful to the JS
division; `0 < now` reflects `Date.now()`.) -/
theorem trackScroll_c9 (threshold : ℚ) (env : ScrollEnv) (s : Store) (now : Nat) (amb : Key)
    (hh : 0 < env.scrollHeight) (hn : 0 < now) :
    (threshold ≤ (env.scrollY + env.innerHeight) / env.scrollHeight →
      scrollCallback threshold env s now amb = markAsRead s now none amb
      ∧ isRead (scrollCallback threshold env s now amb) none amb = some now)
    ∧ ((env.scrollY + env.innerHeight) / env.scrollHeight < threshold →
      scrollCallback threshold env s now amb = s) := by
  constructor
  · intro hge
    have he : scrollCallback threshold env s now amb = markAsRead s now none amb := by
      simp [scrollCallback, hge]
    refine ⟨he, ?_⟩
    rw [he]
    have hg : getStore (markAsRead s now none amb) amb = some now :=
      getStore_putStore_same s amb now
    simp [isRead, hg, Nat.pos_iff_ne_zero.mp hn]
  · intro hlt
    simp [scrollCallback, not_le.mpr hlt]

/-- Witness for C9: threshold 4/5, scroll position 800 with viewport 200
over a 1000-high document gives fraction 1, so the ambient path `[47]`
is written at time 5 and read back. -/
theorem trackScroll_c9_w :
    scrollCallback (4 / 5) ⟨800, 200, 1000⟩ [] 5 [47]
      = markAsRead [] 5 none [47]
    ∧ isRead (scrollCallback (4 / 5) ⟨800, 200, 1000⟩ [] 5 [47]) none [47] = some 5 :=
  (trackScroll_c9 (4 / 5) ⟨800, 200, 1000⟩ [] 5 [47] (by norm_num) (by norm_num)).1
    (by norm_num)

/-- C10: an explicit empty-string argument is used verbatim as the
storage key — `markAsRead("")` writes under the key `""` and leaves the
ambient path's record alone, and `isRead("")` queries the key `""` —
while only a `null` (or omitted, which defaults to `null`) argument
resolves to the ambient `window.location.pathname`. -/
theorem pathname_c10 (s : Store) (t : Nat) (amb : Key)
    (hamb : amb ≠ []) (ht : 0 < t) :
    getStore (markAsRead s t (some []) amb) [] = some t
    ∧ getStore (markAsRead s t (some []) amb) amb = getStore s amb
    ∧ isRead (markAsRead s t (some []) amb) (some []) amb = some t
    ∧ markAsRead s t none amb = putStore s amb t
    ∧ isRead s none amb = isRead s (some amb) amb := by
  refine ⟨getStore_putStore_same s [] t, getStore_putStore_other s [] amb t hamb,
    ?_, rfl, rfl⟩
  have hg : getStore (markAsRead s t (some []) amb) [] = some t :=
    getStore_putStore_same s [] t
  simp [isRead, hg, Nat.pos_iff_ne_zero.mp ht]

/-- Witness for C10: with ambient path `[47]`, `markAsRead` of the empty
key at time 4 stores under `[]` and leaves `[47]` unchanged, and
`isRead` of the empty key reads it back. -/
theorem pathname_c10_w :
    getStore (markAsRead [([47], 9)] 4 (some []) [47]) [] = some 4
    ∧ getStore (markAsRead [([47], 9)] 4 (some []) [47]) [47]
      = getStore [([47], 9)] [47]
    ∧ isRead (markAsRead [([47], 9)] 4 (some []) [47]) (some []) [47] = some 4 :=
  ⟨(pathname_c10 [([47], 9)] 4 [47] (by decide) (by decide)).1,
    (pathname_c10 [([47], 9)] 4 [47] (by decide) (by decide)).2.1,
    (pathname_c10 [([47], 9)] 4 [47] (by decide) (by decide)).2.2.1⟩

end TrackPagesRead
